import Mathlib

/-
Verification development for the Naive Bayes Piazza-post classifier
(src/main.cpp).

Shallow embedding conventions:
* `std::map<string, T>` is embedded as an association list whose keys are kept
  in strictly increasing lexicographic order (`strLt`), which is exactly the
  iteration order of `std::map` with the default `std::less<std::string>`.
* The `double` fields of `Classifier` only ever hold exact small non-negative
  integers (counts), so they are embedded as `ℕ`; the log-probability
  computations cast them to `ℝ` and use `Real.log` for `log`.
* `istringstream >> word` extraction is embedded by `tokens`, which splits a
  character list into its maximal runs of non-whitespace characters.
* `std::map::operator[]` value-inserts a default entry when the key is absent;
  the pure value read is embedded by `findD` (lookup with default) and the
  insertion side effect, where a claim depends on it, by `upd ... id`.
-/

namespace NB

/-! ### Whitespace and tokenization (`unique_words`, main.cpp lines 37-47) -/

/-- The classic-locale `isspace` characters that `istringstream` extraction
skips: space, tab, newline, vertical tab, form feed, carriage return. -/
def isWS (c : Char) : Bool :=
  c = ' ' || c = '\t' || c = '\n' || c = Char.ofNat 11 || c = Char.ofNat 12 || c = '\r'

def notWS (c : Char) : Bool := ! isWS c

/-- Word-splitting worker: `cur` holds the characters of the word currently
being read, in reverse order. -/
def tokensAux (cur : List Char) : List Char → List (List Char)
  | [] => if cur = [] then [] else [cur.reverse]
  | c :: t =>
    if isWS c then
      if cur = [] then tokensAux [] t else cur.reverse :: tokensAux [] t
    else tokensAux (c :: cur) t

/-- The sequence of words `istringstream >> word` extracts from a character
list: maximal runs of non-whitespace characters, in order of occurrence. -/
def tokens (s : List Char) : List (List Char) := tokensAux [] s

/-! ### Lexicographic string order (std::less<std::string>) -/

/-- Lexicographic comparison of character lists, mirroring
`std::lexicographical_compare` as used by `std::string::operator<`. -/
def lexLt : List Char → List Char → Bool
  | [], [] => false
  | [], _ :: _ => true
  | _ :: _, [] => false
  | x :: xs, y :: ys => if x < y then true else if x = y then lexLt xs ys else false

/-- `std::string` comparison: lexicographic on the character data. -/
def strLt (a b : String) : Bool := lexLt a.data b.data

/-! ### std::set<string> (sorted, duplicate-free) -/

/-- Insertion into a sorted duplicate-free list of strings, mirroring
`std::set<std::string>::insert`. -/
def insSet (w : String) : List String → List String
  | [] => [w]
  | x :: t => if strLt w x then w :: x :: t else if w = x then x :: t else x :: insSet w t

/-- `unique_words` (main.cpp lines 37-47): the set of whitespace-delimited
words of `str`, represented as the sorted duplicate-free list in which
`std::set<std::string>` iterates its elements. -/
def unique_words (s : String) : List String :=
  (tokens s.data).foldl (fun acc t => insSet t.asString acc) []

/-! ### std::map<string, α> as a sorted association list -/

/-- Pure value lookup: the value stored at `k`, or `d` when `k` is absent
(a freshly value-initialized mapped value, i.e. `0.0` for the count maps). -/
def findD (m : List (String × α)) (k : String) (d : α) : α :=
  match m with
  | [] => d
  | (k', v) :: rest => if k = k' then v else findD rest k d

/-- `map[k] = f(map[k])` with default `d` for an absent key: replaces the value
at `k` when present, otherwise inserts `(k, f d)` at its sorted position.
This is the state effect of `operator[]` followed by an update `f` (use
`f = id` for a bare `operator[]` read, which still inserts a default entry). -/
def upd (m : List (String × α)) (k : String) (d : α) (f : α → α) : List (String × α) :=
  match m with
  | [] => [(k, f d)]
  | (k', v) :: rest =>
    if strLt k k' then (k, f d) :: (k', v) :: rest
    else if k = k' then (k', f v) :: rest
    else (k', v) :: upd rest k d f

/-- `map[k] += 1` on a count map (absent keys behave as 0). -/
def bump (m : List (String × ℕ)) (k : String) : List (String × ℕ) :=
  upd m k 0 (· + 1)

/-- The key list, in iteration order. -/
def keys (m : List (String × α)) : List String := m.map Prod.fst

/-- Sum of `g` over the stored values. -/
def sumBy (g : α → ℕ) (m : List (String × α)) : ℕ := (m.map (fun p => g p.2)).sum

/-- Keys strictly increasing: the representation invariant of `std::map`. -/
def SortedK (m : List (String × α)) : Prop :=
  m.Pairwise (fun p q => strLt p.1 q.1 = true)

/-! ### The Frequency Model and training (main.cpp lines 20-28, 147-166) -/

/-- The data members of `Classifier` that constitute the Frequency Model.
The `double` counters hold exact non-negative integers, embedded as `ℕ`. -/
structure Model where
  total_posts : ℕ
  vocab_size : ℕ
  word_count : List (String × ℕ)
  label_count : List (String × ℕ)
  C_w_count : List (String × List (String × ℕ))
  deriving DecidableEq, Repr

/-- One iteration of the inner word loop of `train_classifier` (lines 157-160):
`word_count[word] += 1; C_w_count[tag][word] += 1;`. -/
def train_word (tag : String) (m : Model) (w : String) : Model :=
  { m with
    word_count := bump m.word_count w,
    C_w_count := upd m.C_w_count tag [] (fun inner => bump inner w) }

/-- One iteration of the training loop (lines 154-163): bump the label count,
then process each unique word of the content, then `total_posts++`. -/
def train_post (m : Model) (r : String × String) : Model :=
  let m1 := { m with label_count := bump m.label_count r.1 }
  let m2 := (unique_words r.2).foldl (train_word r.1) m1
  { m2 with total_posts := m2.total_posts + 1 }

/-- `train_classifier` (lines 147-166) on the stream of (tag, content)
records, starting from a default-constructed `Classifier`; finally
`vocab_size = word_count.size()`. -/
def train_classifier (records : List (String × String)) : Model :=
  let m := records.foldl train_post
    { total_posts := 0, vocab_size := 0, word_count := [], label_count := [],
      C_w_count := [] }
  { m with vocab_size := m.word_count.length }

/-! ### Scorer / Predictor (main.cpp lines 61-99, 171-186)

The scorers read the count maps through `operator[]`; the value obtained is
the stored count, or `0.0` for an absent key (value-initialized), i.e. exactly
`findD … 0`.  The insertion side effect of those reads is modelled separately
below (`calc_log_prior_upd`, `calc_log_likelihood_upd`). -/

/-- The value of `C_w_count[label][word]`. -/
def jointCount (m : Model) (label word : String) : ℕ :=
  findD (findD m.C_w_count label []) word 0

/-- The value of `word_count[word]`. -/
def wordCount (m : Model) (w : String) : ℕ := findD m.word_count w 0

/-- The value of `label_count[C]`. -/
def labelCount (m : Model) (C : String) : ℕ := findD m.label_count C 0

/-- `calc_log_prior` (lines 61-63): `log(label_count[label] / total_posts)`. -/
noncomputable def calc_log_prior (m : Model) (label : String) : ℝ :=
  Real.log ((labelCount m label : ℝ) / (m.total_posts : ℝ))

/-- `calc_log_likelihood` (lines 68-81), with its three branches in source
order. -/
noncomputable def calc_log_likelihood (m : Model) (label word : String) : ℝ :=
  if jointCount m label word = 0 ∧ wordCount m word ≠ 0 then
    Real.log ((wordCount m word : ℝ) / (m.total_posts : ℝ))
  else if wordCount m word = 0 then
    Real.log (1 / (m.total_posts : ℝ))
  else
    Real.log ((jointCount m label word : ℝ) / (labelCount m label : ℝ))

/-- `calc_log_prob_score` (lines 89-99): starting from the log prior, add the
log likelihood of each unique word of the content (the C++ iterates the
`std::set` in sorted order, which is the order of `unique_words`).  The
content, read from `correct_post["content"]` in the source, is passed as an
argument. -/
noncomputable def calc_log_prob_score (m : Model) (label content : String) : ℝ :=
  (unique_words content).foldl (fun acc w => acc + calc_log_likelihood m label w)
    (calc_log_prior m label)

/-- The `prob_scores` vector of `predict_label` (lines 172-176): one
(label, score) pair per entry of `C_w_count`, in `std::map` iteration order. -/
noncomputable def prob_scores (m : Model) (content : String) : List (String × ℝ) :=
  m.C_w_count.map (fun p => (p.1, calc_log_prob_score m p.1 content))

/-- The scan of `predict_label`'s loop (lines 177-184): starting from the
first entry, replace the current best only when a later entry's score is
strictly greater. -/
noncomputable def bestOf (first : String × ℝ) (rest : List (String × ℝ)) : String × ℝ :=
  rest.foldl (fun best cur => if cur.2 > best.2 then cur else best) first

/-- `predict_label` (lines 171-186): scan `prob_scores` keeping the first
entry whose score all later entries fail to strictly exceed.  On an empty
model the source reads `prob_scores[0]` out of bounds (undefined behavior,
no defined result), embedded as `none`. -/
noncomputable def predict_label (m : Model) (content : String) : Option (String × ℝ) :=
  match prob_scores m content with
  | [] => none
  | first :: rest => some (bestOf first rest)

/-! ### State effects of the scorers' `operator[]` reads -/

/-- The state effect of `calc_log_prior` (line 62): `label_count[label]`
value-inserts a `0` entry when `label` is absent. -/
def calc_log_prior_upd (m : Model) (label : String) : Model :=
  { m with label_count := upd m.label_count label 0 id }

/-- The state effect of `calc_log_likelihood` (lines 68-81): every control
path evaluates `C_w_count[label][word]` and `word_count[word]` (the first in
the first condition, the second in the first or second condition), and the
third branch additionally evaluates `label_count[label]`; each read
value-inserts a default entry when its key is absent. -/
def calc_log_likelihood_upd (m : Model) (label word : String) : Model :=
  let m' := { m with
    C_w_count := upd m.C_w_count label [] (fun inner => upd inner word 0 id),
    word_count := upd m.word_count word 0 id }
  if jointCount m label word ≠ 0 ∧ wordCount m word ≠ 0 then
    { m' with label_count := upd m'.label_count label 0 id }
  else m'

/-! ### Definitions written from the spec's words (for refinement claims) -/

/-- Modelled from the spec, §4.2: the three-way likelihood rule
`log_likelihood(model, C, w)`, in the spec's stated priority order. -/
noncomputable def log_likelihood_spec (m : Model) (C w : String) : ℝ :=
  if jointCount m C w = 0 ∧ 0 < wordCount m w then
    Real.log ((wordCount m w : ℝ) / (m.total_posts : ℝ))
  else if wordCount m w = 0 then
    Real.log (1 / (m.total_posts : ℝ))
  else
    Real.log ((jointCount m C w : ℝ) / (labelCount m C : ℝ))

/-- A word: a nonempty run of non-whitespace characters. -/
def IsToken (w : List Char) : Prop := w ≠ [] ∧ ∀ c ∈ w, notWS c = true

/-- `w` is a maximal run of non-whitespace characters of `s`: it occurs in
`s` bounded on the left by a whitespace character or the start of `s`, and on
the right by a whitespace character or the end of `s`. -/
def MaxRun (w s : List Char) : Prop :=
  IsToken w ∧ ∃ a b, s = a ++ w ++ b ∧ (∀ c, a.getLast? = some c → isWS c = true) ∧
    (∀ c, b.head? = some c → isWS c = true)

/-- Each element of a list, twice in succession. -/
def dupEach : List α → List α
  | [] => []
  | x :: t => x :: x :: dupEach t

/-- Join a list of words with single spaces. -/
def joinTokens : List (List Char) → List Char
  | [] => []
  | [t] => t
  | t :: rest => t ++ ' ' :: joinTokens rest

/-- The same content with every word doubled: each word of `s`, in order,
written twice. -/
def double_words (s : String) : String :=
  (joinTokens (dupEach (tokens s.data))).asString

/-- A strictly increasing list of strings (the shape of a `std::set<string>`
in iteration order). -/
def sortedS (l : List String) : Prop := l.Pairwise (fun a b => strLt a b = true)

/-- The representation and counting invariants that training establishes:
every map is a well-formed `std::map` (strictly increasing keys), the label
counts sum to `total_posts`, the per-word joint counts sum to the word
counts, every word key of an inner map is a word key of `word_count`, and
every label key of `C_w_count` is a label key of `label_count`. -/
structure Inv (m : Model) : Prop where
  s_word : SortedK m.word_count
  s_label : SortedK m.label_count
  s_outer : SortedK m.C_w_count
  s_inner : ∀ p ∈ m.C_w_count, SortedK p.2
  word_sum : ∀ w, sumBy (fun inner => findD inner w 0) m.C_w_count = findD m.word_count w 0
  inner_sub : ∀ p ∈ m.C_w_count, ∀ w ∈ keys p.2, w ∈ keys m.word_count
  outer_sub : ∀ l ∈ keys m.C_w_count, l ∈ keys m.label_count

/-! ## Theorems -/

/-! ### The lexicographic order -/

theorem lexLt_irrefl : ∀ l : List Char, lexLt l l = false
  | [] => rfl
  | x :: xs => by simp [lexLt, lexLt_irrefl xs]

theorem lexLt_asymm : ∀ {a b : List Char}, lexLt a b = true → lexLt b a = false
  | [], [], h => by simp [lexLt] at h
  | [], _ :: _, _ => rfl
  | _ :: _, [], h => by simp [lexLt] at h
  | x :: xs, y :: ys, h => by
    simp only [lexLt] at h ⊢
    rcases lt_trichotomy x y with hxy | hxy | hxy
    · simp [hxy, not_lt_of_lt hxy, ne_of_gt hxy]
    · subst hxy
      simp only [lt_irrefl, if_false, if_pos rfl] at h ⊢
      exact lexLt_asymm h
    · simp [hxy, not_lt_of_lt hxy, ne_of_gt hxy] at h

theorem lexLt_trans : ∀ {a b c : List Char},
    lexLt a b = true → lexLt b c = true → lexLt a c = true
  | [], b, [], _, h₂ => by cases b <;> simp [lexLt] at h₂
  | [], _, _ :: _, _, _ => rfl
  | _ :: _, [], _, h₁, _ => by simp [lexLt] at h₁
  | _ :: _, _ :: _, [], _, h₂ => by simp [lexLt] at h₂
  | x :: xs, y :: ys, z :: zs, h₁, h₂ => by
    simp only [lexLt] at h₁ h₂ ⊢
    rcases lt_trichotomy x y with hxy | hxy | hxy
    · rcases lt_trichotomy y z with hyz | hyz | hyz
      · simp [lt_trans hxy hyz]
      · subst hyz; simp [hxy]
      · simp [not_lt_of_lt hyz, ne_of_gt hyz] at h₂
    · subst hxy
      rcases lt_trichotomy x z with hxz | hxz | hxz
      · simp [hxz]
      · subst hxz
        simp only [lt_irrefl, if_false, if_pos rfl] at h₁ h₂ ⊢
        exact lexLt_trans h₁ h₂
      · simp [not_lt_of_lt hxz, ne_of_gt hxz] at h₂
    · simp [not_lt_of_lt hxy, ne_of_gt hxy] at h₁

theorem lexLt_eq_of_not_lt : ∀ {a b : List Char},
    lexLt a b = false → lexLt b a = false → a = b
  | [], [], _, _ => rfl
  | [], _ :: _, h₁, _ => by simp [lexLt] at h₁
  | _ :: _, [], _, h₂ => by simp [lexLt] at h₂
  | x :: xs, y :: ys, h₁, h₂ => by
    simp only [lexLt] at h₁ h₂
    rcases lt_trichotomy x y with hxy | hxy | hxy
    · simp [hxy] at h₁
    · subst hxy
      simp only [lt_irrefl, if_false, if_pos rfl] at h₁ h₂
      rw [lexLt_eq_of_not_lt h₁ h₂]
    · simp [hxy] at h₂

theorem strLt_irrefl (a : String) : strLt a a = false := lexLt_irrefl a.data

theorem strLt_asymm {a b : String} (h : strLt a b = true) : strLt b a = false :=
  lexLt_asymm h

theorem strLt_trans {a b c : String} (h₁ : strLt a b = true) (h₂ : strLt b c = true) :
    strLt a c = true :=
  lexLt_trans h₁ h₂

theorem strLt_eq_of_not_lt {a b : String} (h₁ : strLt a b = false)
    (h₂ : strLt b a = false) : a = b := by
  have := lexLt_eq_of_not_lt h₁ h₂
  cases a; cases b; simp_all

theorem strLt_ne {a b : String} (h : strLt a b = true) : a ≠ b := by
  rintro rfl
  rw [strLt_irrefl] at h
  cases h

/-! ### Tokenization equations -/

theorem tokensAux_nil_ws {c : Char} (hw : isWS c = true) (t : List Char) :
    tokensAux [] (c :: t) = tokensAux [] t := by
  rw [tokensAux]
  simp [hw]

theorem tokensAux_ne_nil : ∀ (t cur : List Char), cur ≠ [] →
    tokensAux cur t
      = (cur.reverse ++ t.takeWhile notWS) :: tokensAux [] (t.dropWhile notWS)
  | [], cur, hc => by simp [tokensAux, hc]
  | c :: t, cur, hc => by
    by_cases hw : isWS c = true
    · have hnw : notWS c = false := by simp [notWS, hw]
      rw [tokensAux]
      simp [hw, hc, hnw, tokensAux_nil_ws hw]
    · have hnw : notWS c = true := by simp [notWS, hw]
      rw [tokensAux]
      simp only [hw, if_false, Bool.false_eq_true]
      rw [tokensAux_ne_nil t (c :: cur) (by simp)]
      simp [hnw]

theorem tokens_nil : tokens [] = [] := rfl

theorem tokens_cons (c : Char) (t : List Char) :
    tokens (c :: t)
      = if isWS c then tokens t
        else (c :: t.takeWhile notWS) :: tokens (t.dropWhile notWS) := by
  by_cases hw : isWS c = true
  · simp [tokens, tokensAux_nil_ws hw, hw]
  · have hnw : notWS c = true := by simp [notWS, hw]
    rw [tokens, tokensAux]
    simp only [hw, if_false, Bool.false_eq_true]
    rw [tokensAux_ne_nil t [c] (by simp)]
    simp [hw, tokens]

/-! ### Sorted association map lemmas -/

theorem upd_cons_lt {k k' : String} {v : α} {rest : List (String × α)}
    (h : strLt k k' = true) (d : α) (f : α → α) :
    upd ((k', v) :: rest) k d f = (k, f d) :: (k', v) :: rest := by
  rw [upd]; simp [h]

theorem upd_cons_eq {k : String} {v : α} {rest : List (String × α)} (d : α) (f : α → α) :
    upd ((k, v) :: rest) k d f = (k, f v) :: rest := by
  rw [upd]; simp [strLt_irrefl]

theorem upd_cons_gt {k k' : String} {v : α} {rest : List (String × α)}
    (h1 : ¬ strLt k k' = true) (h2 : k ≠ k') (d : α) (f : α → α) :
    upd ((k', v) :: rest) k d f = (k', v) :: upd rest k d f := by
  rw [upd]; simp [h1, h2]

theorem findD_cons_eq {k : String} {v : α} {rest : List (String × α)} (d : α) :
    findD ((k, v) :: rest) k d = v := by
  simp [findD]

theorem findD_cons_ne {k k' : String} (h : k ≠ k') {v : α} {rest : List (String × α)}
    {d : α} : findD ((k', v) :: rest) k d = findD rest k d := by
  simp [findD, h]

theorem findD_eq_of_not_mem {m : List (String × α)} {k : String} (h : k ∉ keys m) (d : α) :
    findD m k d = d := by
  induction m with
  | nil => rfl
  | cons p rest ih =>
    obtain ⟨k', v⟩ := p
    simp only [keys, List.map_cons, List.mem_cons, not_or] at h
    simpa [findD, h.1] using ih h.2

theorem findD_mem {m : List (String × α)} {k : String} (h : k ∈ keys m) (d : α) :
    (k, findD m k d) ∈ m := by
  induction m with
  | nil => simp [keys] at h
  | cons p rest ih =>
    obtain ⟨k', v⟩ := p
    by_cases hk : k = k'
    · subst hk; simp [findD]
    · simp only [keys, List.map_cons, List.mem_cons] at h
      rcases h with h | h
    -- first disjunct contradicts hk
      · exact absurd h hk
      · simp only [findD, if_neg hk, List.mem_cons]
        exact Or.inr (ih h)

theorem mem_keys_upd {m : List (String × α)} {k a : String} {d : α} {f : α → α} :
    a ∈ keys (upd m k d f) ↔ a = k ∨ a ∈ keys m := by
  induction m with
  | nil => simp [upd, keys]
  | cons p rest ih =>
    obtain ⟨k', v⟩ := p
    by_cases h1 : strLt k k' = true
    · simp [upd, h1, keys]
    · by_cases h2 : k = k'
      · subst h2; simp [upd, h1, keys]
      · simp only [upd, if_neg h1, if_neg h2, keys, List.map_cons, List.mem_cons] at ih ⊢
        rw [ih]
        tauto

theorem sortedK_cons {p : String × α} {rest : List (String × α)} :
    SortedK (p :: rest) ↔ (∀ q ∈ rest, strLt p.1 q.1 = true) ∧ SortedK rest := by
  simp [SortedK, List.pairwise_cons]

theorem not_mem_keys_of_forall_lt {m : List (String × α)} {k : String}
    (h : ∀ q ∈ m, strLt k q.1 = true) : k ∉ keys m := by
  intro hk
  induction m with
  | nil => simp [keys] at hk
  | cons p rest ih =>
    simp only [keys, List.map_cons, List.mem_cons] at hk
    rcases hk with hk | hk
    · exact strLt_ne (h p (by simp)) hk
    · exact ih (fun q hq => h q (by simp [hq])) hk

theorem findD_upd_self {m : List (String × α)} (hs : SortedK m) (k : String) (d : α)
    (f : α → α) : findD (upd m k d f) k d = f (findD m k d) := by
  induction m with
  | nil => simp [upd, findD]
  | cons p rest ih =>
    obtain ⟨k', v⟩ := p
    rw [sortedK_cons] at hs
    by_cases h1 : strLt k k' = true
    · have hne : k ≠ k' := strLt_ne h1
      have hnm : k ∉ keys rest :=
        not_mem_keys_of_forall_lt (fun q hq => strLt_trans h1 (hs.1 q hq))
      simp [upd, h1, findD, hne, findD_eq_of_not_mem hnm]
    · by_cases h2 : k = k'
      · subst h2; simp [upd, h1, findD]
      · simp [upd, h1, h2, findD, ih hs.2]

theorem findD_upd_ne {m : List (String × α)} {k k' : String} (h : k' ≠ k) (d d' : α)
    (f : α → α) : findD (upd m k d f) k' d' = findD m k' d' := by
  induction m with
  | nil => simp [upd, findD, h]
  | cons p rest ih =>
    obtain ⟨k'', v⟩ := p
    by_cases h1 : strLt k k'' = true
    · simp [upd, h1, findD, h]
    · by_cases h2 : k = k''
      · subst h2; simp [upd, h1, findD, h]
      · simp [upd, h1, h2, findD, ih]

theorem sorted_upd {m : List (String × α)} (hs : SortedK m) (k : String) (d : α)
    (f : α → α) : SortedK (upd m k d f) := by
  induction m with
  | nil => simp [upd, SortedK]
  | cons p rest ih =>
    obtain ⟨k', v⟩ := p
    rw [sortedK_cons] at hs
    by_cases h1 : strLt k k' = true
    · rw [upd]
      simp only [h1, if_true]
      rw [sortedK_cons]
      refine ⟨?_, sortedK_cons.mpr hs⟩
      intro q hq
      rcases List.mem_cons.mp hq with rfl | hq
      · exact h1
      · exact strLt_trans h1 (hs.1 q hq)
    · by_cases h2 : k = k'
      · subst h2
        rw [upd_cons_eq, sortedK_cons]
        exact ⟨fun q hq => hs.1 q hq, hs.2⟩
      · rw [upd_cons_gt h1 h2, sortedK_cons]
        refine ⟨?_, ih hs.2⟩
        intro q hq
        have hmem : q.1 ∈ keys (upd rest k d f) :=
          show q.1 ∈ (upd rest k d f).map Prod.fst from List.mem_map.mpr ⟨q, hq, rfl⟩
        rcases mem_keys_upd.mp hmem with hq1 | hq1
        · show strLt k' q.1 = true
          rw [hq1]
          by_contra hko
          exact h2 (strLt_eq_of_not_lt (Bool.eq_false_iff.mpr h1) (Bool.eq_false_iff.mpr hko))
        · obtain ⟨q', hq', hq'1⟩ := List.mem_map.mp hq1
          show strLt k' q.1 = true
          rw [← hq'1]
          exact hs.1 q' hq'

theorem mem_upd {m : List (String × α)} (hs : SortedK m) {k : String} {d : α} {f : α → α}
    {p : String × α} :
    p ∈ upd m k d f ↔ (p ∈ m ∧ p.1 ≠ k) ∨ p = (k, f (findD m k d)) := by
  induction m with
  | nil => simp [upd, findD]
  | cons q rest ih =>
    obtain ⟨k', v⟩ := q
    rw [sortedK_cons] at hs
    by_cases h1 : strLt k k' = true
    · have hne : k ≠ k' := strLt_ne h1
      have hnm : k ∉ keys rest :=
        not_mem_keys_of_forall_lt (fun q hq => strLt_trans h1 (hs.1 q hq))
      have hkeys : ∀ q : String × α, q = (k', v) ∨ q ∈ rest → q.1 ≠ k := by
        rintro q (rfl | hq)
        · exact fun hc => hne hc.symm
        · intro hc
          exact hnm (show k ∈ keys rest from
            hc ▸ List.mem_map.mpr ⟨q, hq, rfl⟩)
      rw [upd_cons_lt h1, findD_cons_ne hne, findD_eq_of_not_mem hnm]
      simp only [List.mem_cons]
      constructor
      · rintro (rfl | hp)
        · exact Or.inr rfl
        · exact Or.inl ⟨hp, hkeys p hp⟩
      · rintro (⟨hp, _⟩ | rfl)
        · exact Or.inr hp
        · exact Or.inl rfl
    · by_cases h2 : k = k'
      · subst h2
        have hkeys : ∀ q : String × α, q ∈ rest → q.1 ≠ k := by
          intro q hq hc
          exact strLt_ne (hs.1 q hq) hc.symm
        rw [upd_cons_eq, findD_cons_eq]
        simp only [List.mem_cons]
        constructor
        · rintro (rfl | hp)
          · exact Or.inr rfl
          · exact Or.inl ⟨Or.inr hp, hkeys p hp⟩
        · rintro (⟨rfl | hp, hpk⟩ | rfl)
          · exact absurd rfl hpk
          · exact Or.inr hp
          · exact Or.inl rfl
      · have hk'k : k' ≠ k := fun hc => h2 hc.symm
        rw [upd_cons_gt h1 h2, findD_cons_ne h2]
        simp only [List.mem_cons, ih hs.2]
        constructor
        · rintro (rfl | (⟨hp, hpk⟩ | rfl))
          · exact Or.inl ⟨Or.inl rfl, hk'k⟩
          · exact Or.inl ⟨Or.inr hp, hpk⟩
          · exact Or.inr rfl
        · rintro (⟨rfl | hp, hpk⟩ | rfl)
          · exact Or.inl rfl
          · exact Or.inr (Or.inl ⟨hp, hpk⟩)
          · exact Or.inr (Or.inr rfl)

theorem sumBy_upd {m : List (String × α)} {g : α → ℕ} {f : α → α} {c : ℕ} {k : String}
    {d : α} (hf : ∀ p ∈ m, g (f p.2) = g p.2 + c) (hfd : g (f d) = c) :
    sumBy g (upd m k d f) = sumBy g m + c := by
  induction m with
  | nil => simp [upd, sumBy, hfd]
  | cons p rest ih =>
    obtain ⟨k', v⟩ := p
    by_cases h1 : strLt k k' = true
    · rw [upd_cons_lt h1]
      simp only [sumBy, List.map_cons, List.sum_cons, hfd]
      ring
    · by_cases h2 : k = k'
      · subst h2
        have hv := hf (k, v) (by simp)
        rw [upd_cons_eq]
        simp only [sumBy, List.map_cons, List.sum_cons, hv]
        ring
      · have ihh := ih (fun q hq => hf q (by simp [hq]))
        rw [upd_cons_gt h1 h2]
        simp only [sumBy, List.map_cons, List.sum_cons] at ihh ⊢
        rw [ihh]
        ring

theorem sumBy_bump (m : List (String × ℕ)) (k : String) :
    sumBy id (bump m k) = sumBy id m + 1 :=
  sumBy_upd (fun _ _ => rfl) rfl

theorem findD_bump_self {m : List (String × ℕ)} (hs : SortedK m) (k : String) :
    findD (bump m k) k 0 = findD m k 0 + 1 :=
  findD_upd_self hs k 0 (· + 1)

theorem findD_bump_ne {m : List (String × ℕ)} {k k' : String} (h : k' ≠ k) :
    findD (bump m k) k' 0 = findD m k' 0 :=
  findD_upd_ne h 0 0 (· + 1)

theorem findD_bump {m : List (String × ℕ)} (hs : SortedK m) (k k' : String) :
    findD (bump m k) k' 0 = findD m k' 0 + (if k' = k then 1 else 0) := by
  by_cases h : k' = k
  · subst h; simp [findD_bump_self hs]
  · simp [findD_bump_ne h, h]

theorem sortedK_nodup_keys {m : List (String × α)} (hs : SortedK m) :
    (keys m).Nodup := by
  have hp : (keys m).Pairwise (fun a b => strLt a b = true) := List.Pairwise.map _ (fun _ _ h => h) hs
  exact hp.imp (fun h => strLt_ne h)

/-! ### Training preserves the invariants -/

theorem train_word_label (t : String) (m : Model) (w : String) :
    (train_word t m w).label_count = m.label_count := rfl

theorem train_word_total (t : String) (m : Model) (w : String) :
    (train_word t m w).total_posts = m.total_posts := rfl

theorem foldl_train_word_label (t : String) (ws : List String) (m : Model) :
    (ws.foldl (train_word t) m).label_count = m.label_count := by
  induction ws generalizing m with
  | nil => rfl
  | cons w ws ih => rw [List.foldl_cons, ih, train_word_label]

theorem foldl_train_word_total (t : String) (ws : List String) (m : Model) :
    (ws.foldl (train_word t) m).total_posts = m.total_posts := by
  induction ws generalizing m with
  | nil => rfl
  | cons w ws ih => rw [List.foldl_cons, ih, train_word_total]

theorem inv_train_word {m : Model} (hm : Inv m) {t : String} (w : String)
    (ht : t ∈ keys m.label_count) : Inv (train_word t m w) := by
  have hinner : SortedK (findD m.C_w_count t []) := by
    by_cases hmem : t ∈ keys m.C_w_count
    · exact hm.s_inner _ (findD_mem hmem [])
    · rw [findD_eq_of_not_mem hmem]
      exact List.Pairwise.nil
  refine ⟨?_, ?_, ?_, ?_, ?_, ?_, ?_⟩
  · exact sorted_upd hm.s_word w 0 (· + 1)
  · exact hm.s_label
  · exact sorted_upd hm.s_outer t [] _
  · intro p hp
    rcases (mem_upd hm.s_outer).mp hp with ⟨hpm, _⟩ | rfl
    · exact hm.s_inner p hpm
    · exact sorted_upd hinner w 0 (· + 1)
  · intro w'
    have hrhs : findD (bump m.word_count w) w' 0
        = findD m.word_count w' 0 + (if w' = w then 1 else 0) := findD_bump hm.s_word w w'
    have hf : ∀ p ∈ m.C_w_count,
        (fun inner => findD inner w' 0) (bump p.2 w)
          = (fun inner => findD inner w' 0) p.2 + (if w' = w then 1 else 0) := by
      intro p hp
      exact findD_bump (hm.s_inner p hp) w w'
    have hfd : (fun inner => findD inner w' 0) (bump ([] : List (String × ℕ)) w)
        = (if w' = w then 1 else 0) := by
      by_cases h : w' = w <;> simp [bump, upd, findD, h]
    have hsum := @sumBy_upd (List (String × ℕ)) m.C_w_count
      (fun inner => findD inner w' 0) (fun inner => bump inner w)
      (if w' = w then 1 else 0) t [] hf hfd
    show sumBy (fun inner => findD inner w' 0) (upd m.C_w_count t [] (fun inner => bump inner w))
        = findD (bump m.word_count w) w' 0
    rw [hsum, hm.word_sum w', hrhs]
  · intro p hp w' hw'
    have hgoal : w' = w ∨ w' ∈ keys m.word_count → w' ∈ keys (bump m.word_count w) :=
      fun h => mem_keys_upd.mpr h
    apply hgoal
    rcases (mem_upd hm.s_outer).mp hp with ⟨hpm, _⟩ | rfl
    · exact Or.inr (hm.inner_sub p hpm w' hw')
    · rcases mem_keys_upd.mp hw' with h | h
      · exact Or.inl h
      · by_cases hmem : t ∈ keys m.C_w_count
        · exact Or.inr (hm.inner_sub _ (findD_mem hmem []) w' h)
        · rw [findD_eq_of_not_mem hmem] at h
          simp [keys] at h
  · intro l hl
    rcases mem_keys_upd.mp hl with rfl | hl
    · exact ht
    · exact hm.outer_sub l hl

theorem inv_foldl_train_word {t : String} (ws : List String) {m : Model} (hm : Inv m)
    (ht : t ∈ keys m.label_count) : Inv (ws.foldl (train_word t) m) := by
  induction ws generalizing m with
  | nil => exact hm
  | cons w ws ih =>
    rw [List.foldl_cons]
    exact ih (inv_train_word hm w ht) (by rw [train_word_label]; exact ht)

theorem inv_train_post {m : Model} (hm : Inv m) (r : String × String) :
    Inv (train_post m r) := by
  have hm1 : Inv { m with label_count := bump m.label_count r.1 } :=
    ⟨hm.s_word, sorted_upd hm.s_label r.1 0 (· + 1), hm.s_outer, hm.s_inner,
      hm.word_sum, hm.inner_sub,
      fun l hl => mem_keys_upd.mpr (Or.inr (hm.outer_sub l hl))⟩
  have ht : r.1 ∈ keys (bump m.label_count r.1) := mem_keys_upd.mpr (Or.inl rfl)
  have h2 := inv_foldl_train_word (unique_words r.2) hm1 ht
  exact ⟨h2.s_word, h2.s_label, h2.s_outer, h2.s_inner, h2.word_sum, h2.inner_sub,
    h2.outer_sub⟩

theorem inv_foldl_train_post (records : List (String × String)) {m : Model}
    (hm : Inv m) : Inv (records.foldl train_post m) := by
  induction records generalizing m with
  | nil => exact hm
  | cons r rs ih =>
    rw [List.foldl_cons]
    exact ih (inv_train_post hm r)

theorem inv_empty : Inv (Model.mk 0 0 [] [] []) := by
  refine ⟨List.Pairwise.nil, List.Pairwise.nil, List.Pairwise.nil, ?_, ?_, ?_, ?_⟩ <;>
    simp [sumBy, findD, keys]

theorem inv_train (records : List (String × String)) : Inv (train_classifier records) := by
  have h := inv_foldl_train_post records inv_empty
  exact ⟨h.s_word, h.s_label, h.s_outer, h.s_inner, h.word_sum, h.inner_sub, h.outer_sub⟩

theorem label_sum_train_post (m : Model) (r : String × String) :
    sumBy id (train_post m r).label_count = sumBy id m.label_count + 1 := by
  show sumBy id ((unique_words r.2).foldl (train_word r.1) _).label_count = _
  rw [foldl_train_word_label]
  exact sumBy_bump m.label_count r.1

theorem total_train_post (m : Model) (r : String × String) :
    (train_post m r).total_posts = m.total_posts + 1 := by
  show ((unique_words r.2).foldl (train_word r.1) _).total_posts + 1 = _
  rw [foldl_train_word_total]

theorem label_sum_foldl (records : List (String × String)) (m : Model)
    (h : sumBy id m.label_count = m.total_posts) :
    sumBy id (records.foldl train_post m).label_count
      = (records.foldl train_post m).total_posts := by
  induction records generalizing m with
  | nil => exact h
  | cons r rs ih =>
    rw [List.foldl_cons]
    exact ih _ (by rw [label_sum_train_post, total_train_post, h])

/-! ### The word set `unique_words` -/

theorem mem_insSet {w a : String} : ∀ {l : List String}, a ∈ insSet w l ↔ a = w ∨ a ∈ l
  | [] => by simp [insSet]
  | x :: t => by
    by_cases h1 : strLt w x = true
    · simp [insSet, h1]
    · by_cases h2 : w = x
      · subst h2; simp [insSet, h1]
      · simp only [insSet, if_neg h1, if_neg h2, List.mem_cons, mem_insSet]
        tauto

theorem sorted_insSet {w : String} : ∀ {l : List String}, sortedS l → sortedS (insSet w l)
  | [], _ => by simp [insSet, sortedS]
  | x :: t, h => by
    rw [sortedS, List.pairwise_cons] at h
    by_cases h1 : strLt w x = true
    · rw [insSet, if_pos h1, sortedS, List.pairwise_cons]
      constructor
      · intro a ha
        rcases List.mem_cons.mp ha with rfl | ha
        · exact h1
        · exact strLt_trans h1 (h.1 a ha)
      · exact List.pairwise_cons.mpr ⟨h.1, h.2⟩
    · by_cases h2 : w = x
      · subst h2
        rw [insSet, if_neg h1, if_pos rfl, sortedS, List.pairwise_cons]
        exact h
      · rw [insSet, if_neg h1, if_neg h2, sortedS, List.pairwise_cons]
        constructor
        · intro a ha
          rcases mem_insSet.mp ha with rfl | ha
          · by_contra hko
            exact h2 (strLt_eq_of_not_lt (Bool.eq_false_iff.mpr h1)
              (Bool.eq_false_iff.mpr hko))
          · exact h.1 a ha
        · exact sorted_insSet h.2

theorem sorted_foldl_insSet (ts : List (List Char)) :
    ∀ {acc : List String}, sortedS acc →
      sortedS (ts.foldl (fun acc t => insSet t.asString acc) acc) := by
  induction ts with
  | nil => intro acc h; exact h
  | cons t ts ih =>
    intro acc h
    exact ih (sorted_insSet h)

theorem unique_words_sorted (s : String) : sortedS (unique_words s) :=
  sorted_foldl_insSet (tokens s.data) (by simp [sortedS])

theorem sortedS_nodup {l : List String} (h : sortedS l) : l.Nodup :=
  h.imp (fun h => strLt_ne h)

theorem unique_words_nodup (s : String) : (unique_words s).Nodup :=
  sortedS_nodup (unique_words_sorted s)

theorem mem_foldl_insSet (ts : List (List Char)) :
    ∀ (acc : List String) (a : String),
      a ∈ ts.foldl (fun acc t => insSet t.asString acc) acc
        ↔ a ∈ acc ∨ ∃ t ∈ ts, t.asString = a := by
  induction ts with
  | nil => simp
  | cons t ts ih =>
    intro acc a
    rw [List.foldl_cons, ih]
    simp only [mem_insSet, List.mem_cons]
    constructor
    · rintro ((rfl | ha) | ⟨t', ht', rfl⟩)
      · exact Or.inr ⟨t, Or.inl rfl, rfl⟩
      · exact Or.inl ha
      · exact Or.inr ⟨t', Or.inr ht', rfl⟩
    · rintro (ha | ⟨t', rfl | ht', rfl⟩)
      · exact Or.inl (Or.inr ha)
      · exact Or.inl (Or.inl rfl)
      · exact Or.inr ⟨t', ht', rfl⟩

theorem mem_unique_words {s w : String} :
    w ∈ unique_words s ↔ ∃ t ∈ tokens s.data, t.asString = w := by
  rw [unique_words, mem_foldl_insSet]
  simp

theorem sortedS_ext : ∀ {l₁ l₂ : List String}, sortedS l₁ → sortedS l₂ →
    (∀ x, x ∈ l₁ ↔ x ∈ l₂) → l₁ = l₂
  | [], [], _, _, _ => rfl
  | [], b :: t₂, _, _, hm => by
    have := (hm b).mpr (by simp)
    simp at this
  | a :: t₁, [], _, _, hm => by
    have := (hm a).mp (by simp)
    simp at this
  | a :: t₁, b :: t₂, h₁, h₂, hm => by
    rw [sortedS, List.pairwise_cons] at h₁ h₂
    have hab : a = b := by
      rcases List.mem_cons.mp ((hm a).mp (by simp)) with h | h
      · exact h
      · rcases List.mem_cons.mp ((hm b).mpr (by simp)) with h' | h'
        · exact h'.symm
        · exact absurd (strLt_trans (h₂.1 a h) (h₁.1 b h')) (by simp [strLt_irrefl])
    subst hab
    have ht : ∀ x, x ∈ t₁ ↔ x ∈ t₂ := by
      intro x
      constructor
      · intro hx
        rcases List.mem_cons.mp ((hm x).mp (List.mem_cons.mpr (Or.inr hx))) with rfl | h
        · exact absurd (h₁.1 x hx) (by simp [strLt_irrefl])
        · exact h
      · intro hx
        rcases List.mem_cons.mp ((hm x).mpr (List.mem_cons.mpr (Or.inr hx))) with rfl | h
        · exact absurd (h₂.1 x hx) (by simp [strLt_irrefl])
        · exact h
    rw [sortedS_ext h₁.2 h₂.2 ht]

/-! ### Folding likelihoods equals prior plus sum -/

theorem foldl_add_eq (f : String → ℝ) (l : List String) (i : ℝ) :
    l.foldl (fun acc w => acc + f w) i = i + (l.map f).sum := by
  induction l generalizing i with
  | nil => simp
  | cons w t ih =>
    rw [List.foldl_cons, ih, List.map_cons, List.sum_cons]
    ring

/-! ### Claim theorems -/

/-- C7: for every training stream, the label counts sum to `total_posts`; for
every word the per-label joint counts sum to that word's global count; every
word key of some inner map of `C_w_count` is a key of `word_count`; and
`vocab_size` is the number of (distinct) keys of `word_count`. -/
theorem c7_count_conservation (records : List (String × String)) :
    sumBy id (train_classifier records).label_count
        = (train_classifier records).total_posts ∧
    (∀ w, sumBy (fun inner => findD inner w 0) (train_classifier records).C_w_count
        = findD (train_classifier records).word_count w 0) ∧
    (∀ p ∈ (train_classifier records).C_w_count, ∀ w ∈ keys p.2,
        w ∈ keys (train_classifier records).word_count) ∧
    (train_classifier records).vocab_size
        = (keys (train_classifier records).word_count).length ∧
    (keys (train_classifier records).word_count).Nodup := by
  have hinv := inv_train records
  refine ⟨?_, hinv.word_sum, hinv.inner_sub, ?_, sortedK_nodup_keys hinv.s_word⟩
  · exact label_sum_foldl records (Model.mk 0 0 [] [] []) rfl
  · show (records.foldl train_post (Model.mk 0 0 [] [] [])).word_count.length
        = (List.map Prod.fst
            (records.foldl train_post (Model.mk 0 0 [] [] [])).word_count).length
    rw [List.length_map]

/-- Witness for c7_count_conservation at a concrete training stream. -/
theorem c7_count_conservation_witness :
    sumBy id (train_classifier [("math","x y"), ("cs","y z")]).label_count
        = (train_classifier [("math","x y"), ("cs","y z")]).total_posts ∧
    "y" ∈ keys (train_classifier [("math","x y"), ("cs","y z")]).word_count :=
  ⟨(c7_count_conservation [("math","x y"), ("cs","y z")]).1,
    (c7_count_conservation [("math","x y"), ("cs","y z")]).2.2.1
      ("cs", [("y", 1), ("z", 1)]) (by decide) "y" (by decide)⟩

/-- C6: `calc_log_prob_score` equals the log prior
`ln(label_count[C] / total_posts)` plus the sum of the log likelihoods over
the unique-word set of the content, each distinct word contributing exactly
once (the word list is duplicate-free). -/
theorem c6_score_is_prior_plus_sum (m : Model) (C content : String) :
    calc_log_prob_score m C content
      = Real.log ((labelCount m C : ℝ) / (m.total_posts : ℝ))
        + ((unique_words content).map (calc_log_likelihood m C)).sum ∧
    (unique_words content).Nodup :=
  ⟨by rw [calc_log_prob_score, foldl_add_eq, calc_log_prior],
    unique_words_nodup content⟩

/-- C4: `calc_log_likelihood` implements the spec's three-way rule in the
spec's stated priority order; in particular, a zero joint count together with
a positive global word count always produces the first branch's formula
`ln(word_count[w] / total_posts)`. -/
theorem c4_likelihood_three_way_rule (m : Model) (C w : String) :
    calc_log_likelihood m C w = log_likelihood_spec m C w ∧
    (jointCount m C w = 0 → 0 < wordCount m w →
      calc_log_likelihood m C w
        = Real.log ((wordCount m w : ℝ) / (m.total_posts : ℝ))) := by
  constructor
  · rw [calc_log_likelihood, log_likelihood_spec]
    simp only [Nat.pos_iff_ne_zero]
  · intro h1 h2
    rw [calc_log_likelihood, if_pos ⟨h1, Nat.pos_iff_ne_zero.mp h2⟩]

/-- Witness for c4_likelihood_three_way_rule: in the model trained on
[(math, x y), (cs, y z)], the word x has zero joint count under cs but
positive global count, and takes branch 1. -/
theorem c4_likelihood_three_way_rule_witness :
    calc_log_likelihood (train_classifier [("math","x y"), ("cs","y z")]) "cs" "x"
      = Real.log
          ((wordCount (train_classifier [("math","x y"), ("cs","y z")]) "x" : ℝ)
            / ((train_classifier [("math","x y"), ("cs","y z")]).total_posts : ℝ)) :=
  (c4_likelihood_three_way_rule (train_classifier [("math","x y"), ("cs","y z")])
    "cs" "x").2 (by decide) (by decide)

/-- C2 (refutation evidence): evaluating `calc_log_likelihood` on a word that
is absent from the model value-inserts zero-count entries through
`operator[]`, so the Frequency Model is not left identical: `word_count`'s
key set gains the queried word (with stored count 0). -/
theorem c2_scorer_mutates_model :
    calc_log_likelihood_upd (train_classifier [("math","x")]) "math" "q"
        ≠ train_classifier [("math","x")] ∧
    keys (calc_log_likelihood_upd (train_classifier [("math","x")]) "math" "q").word_count
        = ["q", "x"] ∧
    keys (train_classifier [("math","x")]).word_count = ["x"] := by
  decide

/-- C8 (refutation evidence): `calc_log_prior` has no guard — invoked with the
label cs that training never observed, it computes the log of a zero prior
(`ln 0`, IEEE −∞ in the C++) instead of reporting a domain error, and its
`operator[]` read inserts the unobserved label with count 0 into
`label_count`. -/
theorem c8_prior_unguarded_returns_log_zero :
    calc_log_prior (train_classifier [("math","x")]) "cs" = Real.log 0 ∧
    (calc_log_prior_upd (train_classifier [("math","x")]) "cs").label_count
      = [("cs", 0), ("math", 1)] := by
  constructor
  · have h : labelCount (train_classifier [("math","x")]) "cs" = 0 := by decide
    have ht : (train_classifier [("math","x")]).total_posts = 1 := by decide
    rw [calc_log_prior, h, ht]
    norm_num
  · decide

/-- C3 (divergence evidence): `predict_label` on an untrained model reports
no domain error — the source indexes `prob_scores[0]` on an empty vector
(undefined behavior, no defined result), embedded as `none`. -/
theorem c3_predict_empty_model_no_result (content : String) :
    predict_label (train_classifier []) content = none := rfl

/-! ### The predictor's label list -/

theorem prob_scores_labels (m : Model) (content : String) :
    (prob_scores m content).map Prod.fst = keys m.C_w_count := by
  rw [prob_scores, keys, List.map_map]
  rfl

/-- C5 (refutation): training a stream in which label cs occurs only with
empty content leaves cs out of `C_w_count` while it is present in
`label_count`, so the two key sets differ. -/
theorem c5_label_sets_differ_counterexample :
    keys (train_classifier [("math","x"), ("cs","")]).C_w_count
        ≠ keys (train_classifier [("math","x"), ("cs","")]).label_count ∧
    keys (train_classifier [("math","x"), ("cs","")]).C_w_count = ["math"] ∧
    keys (train_classifier [("math","x"), ("cs","")]).label_count = ["cs", "math"] := by
  decide

/-- C5 (amended): the labels the predictor scores are exactly the keys of
`C_w_count`, and every key of `C_w_count` is a key of `label_count`; the
converse inclusion can fail when a label's posts all have empty content, so
the two key sets need not be equal. -/
theorem c5_scored_labels (records : List (String × String)) (content : String) :
    (prob_scores (train_classifier records) content).map Prod.fst
        = keys (train_classifier records).C_w_count ∧
    (∀ l ∈ keys (train_classifier records).C_w_count,
        l ∈ keys (train_classifier records).label_count) :=
  ⟨prob_scores_labels (train_classifier records) content, (inv_train records).outer_sub⟩

/-- Witness for c5_scored_labels at a concrete stream and label. -/
theorem c5_scored_labels_witness :
    (prob_scores (train_classifier [("math","x"), ("cs","")]) "x").map Prod.fst
        = keys (train_classifier [("math","x"), ("cs","")]).C_w_count ∧
    "math" ∈ keys (train_classifier [("math","x"), ("cs","")]).label_count :=
  ⟨(c5_scored_labels [("math","x"), ("cs","")] "x").1,
    (c5_scored_labels [("math","x"), ("cs","")] "x").2 "math" (by decide)⟩

/-! ### The predictor's scan -/

theorem predict_label_eq {m : Model} {content : String} {first : String × ℝ}
    {rest : List (String × ℝ)} (h : prob_scores m content = first :: rest) :
    predict_label m content = some (bestOf first rest) := by
  unfold predict_label
  rw [h]

theorem bestOf_cons (first c : String × ℝ) (t : List (String × ℝ)) :
    bestOf first (c :: t) = bestOf (if c.2 > first.2 then c else first) t := by
  rw [bestOf, List.foldl_cons]
  rfl

/-- The scan keeps the first entry attaining the maximum score: everything
strictly before the result scores strictly less, everything after scores no
more. -/
theorem bestOf_split (first : String × ℝ) (rest : List (String × ℝ)) :
    ∃ pre suf, first :: rest = pre ++ (bestOf first rest) :: suf ∧
      (∀ x ∈ pre, x.2 < (bestOf first rest).2) ∧
      (∀ x ∈ suf, x.2 ≤ (bestOf first rest).2) := by
  induction rest generalizing first with
  | nil => exact ⟨[], [], rfl, by simp, by simp⟩
  | cons c t ih =>
    by_cases h : c.2 > first.2
    · obtain ⟨pre, suf, heq, hpre, hsuf⟩ := ih c
      have hb : bestOf first (c :: t) = bestOf c t := by rw [bestOf_cons, if_pos h]
      have hcle : c.2 ≤ (bestOf c t).2 := by
        have hc : c ∈ pre ++ bestOf c t :: suf := heq ▸ List.mem_cons_self c t
        rcases List.mem_append.mp hc with hc | hc
        · exact le_of_lt (hpre c hc)
        · rcases List.mem_cons.mp hc with hc | hc
          · exact le_of_eq (congrArg Prod.snd hc)
          · exact hsuf c hc
      refine ⟨first :: pre, suf, ?_, ?_, ?_⟩
      · rw [hb, List.cons_append, ← heq]
      · intro x hx
        rw [hb]
        rcases List.mem_cons.mp hx with rfl | hx
        · exact lt_of_lt_of_le h hcle
        · exact hpre x hx
      · intro x hx
        rw [hb]
        exact hsuf x hx
    · obtain ⟨pre, suf, heq, hpre, hsuf⟩ := ih first
      have hb : bestOf first (c :: t) = bestOf first t := by rw [bestOf_cons, if_neg h]
      cases pre with
      | nil =>
        rw [List.nil_append] at heq
        have hr : first = bestOf first t := ((List.cons.injEq _ _ _ _).mp heq).1
        have hsufeq : t = suf := ((List.cons.injEq _ _ _ _).mp heq).2
        refine ⟨[], c :: t, by rw [hb, ← hr]; rfl, by simp, ?_⟩
        intro x hx
        rw [hb, ← hr]
        rcases List.mem_cons.mp hx with rfl | hx
        · exact le_of_not_lt h
        · have hx2 := hsuf x (hsufeq ▸ hx)
          rwa [← hr] at hx2
      | cons p pre' =>
        rw [List.cons_append] at heq
        have hp : p = first := ((List.cons.injEq _ _ _ _).mp heq).1.symm
        have ht : t = pre' ++ bestOf first t :: suf := ((List.cons.injEq _ _ _ _).mp heq).2
        have hflt : first.2 < (bestOf first t).2 := by
          have hq := hpre p (List.mem_cons_self p pre')
          rwa [hp] at hq
        refine ⟨first :: c :: pre', suf, ?_, ?_, ?_⟩
        · rw [hb, List.cons_append, List.cons_append, ← ht]
        · intro x hx
          rw [hb]
          rcases List.mem_cons.mp hx with rfl | hx
          · exact hflt
          · rcases List.mem_cons.mp hx with rfl | hx
            · exact lt_of_le_of_lt (le_of_not_lt h) hflt
            · exact hpre x (by simp [hx])
        · intro x hx
          rw [hb]
          exact hsuf x hx

/-! ### The end-to-end tie scenario -/

theorem scenario_scores_tie :
    calc_log_prob_score (train_classifier [("math","x y"), ("cs","y z")]) "cs" "y"
      = calc_log_prob_score (train_classifier [("math","x y"), ("cs","y z")]) "math" "y" := by
  have huw : unique_words "y" = ["y"] := by decide
  rw [calc_log_prob_score, calc_log_prob_score, huw]
  simp only [List.foldl_cons, List.foldl_nil]
  rw [calc_log_prior, calc_log_prior, calc_log_likelihood, calc_log_likelihood]
  have h1 : jointCount (train_classifier [("math","x y"), ("cs","y z")]) "cs" "y" = 1 := by
    decide
  have h2 : jointCount (train_classifier [("math","x y"), ("cs","y z")]) "math" "y" = 1 := by
    decide
  have h3 : wordCount (train_classifier [("math","x y"), ("cs","y z")]) "y" = 2 := by decide
  have h4 : labelCount (train_classifier [("math","x y"), ("cs","y z")]) "cs" = 1 := by decide
  have h5 : labelCount (train_classifier [("math","x y"), ("cs","y z")]) "math" = 1 := by
    decide
  rw [h1, h2, h3, h4, h5]

theorem scenario_predict :
    predict_label (train_classifier [("math","x y"), ("cs","y z")]) "y"
      = some ("cs",
          calc_log_prob_score (train_classifier [("math","x y"), ("cs","y z")]) "cs" "y") := by
  have hC : (train_classifier [("math","x y"), ("cs","y z")]).C_w_count
      = [("cs", [("y",1),("z",1)]), ("math", [("x",1),("y",1)])] := by decide
  have hps : prob_scores (train_classifier [("math","x y"), ("cs","y z")]) "y"
      = [("cs",
            calc_log_prob_score (train_classifier [("math","x y"), ("cs","y z")]) "cs" "y"),
         ("math",
            calc_log_prob_score (train_classifier [("math","x y"), ("cs","y z")]) "math" "y")] := by
    rw [prob_scores, hC]
    simp only [List.map_cons, List.map_nil]
  have hlt : ¬ (calc_log_prob_score (train_classifier [("math","x y"), ("cs","y z")]) "math" "y"
      > calc_log_prob_score (train_classifier [("math","x y"), ("cs","y z")]) "cs" "y") := by
    rw [← scenario_scores_tie]
    exact lt_irrefl _
  rw [predict_label_eq hps, bestOf_cons]
  simp only [hlt, if_false]
  rfl

/-! ### C1 theorems -/

/-- C1 (refutation): after training on [(math, x y), (cs, y z)], predicting on
content y is a genuine tie between the two labels, but the returned label is
cs — the first label in `std::map`'s sorted iteration order — not math, the
label whose first training record appeared earliest. -/
theorem c1_tie_prediction_is_cs_not_math :
    calc_log_prob_score (train_classifier [("math","x y"), ("cs","y z")]) "cs" "y"
        = calc_log_prob_score (train_classifier [("math","x y"), ("cs","y z")]) "math" "y" ∧
    (predict_label (train_classifier [("math","x y"), ("cs","y z")]) "y").map Prod.fst
        = some "cs" ∧
    (predict_label (train_classifier [("math","x y"), ("cs","y z")]) "y").map Prod.fst
        ≠ some "math" := by
  refine ⟨scenario_scores_tie, ?_, ?_⟩
  · rw [scenario_predict]
    rfl
  · rw [scenario_predict]
    simp only [Option.map_some']
    decide

/-- C1 (amended): `predict_label` returns a label of `C_w_count` whose score
is greatest, and on ties the lexicographically least such label — the first
in `std::map`'s sorted iteration order, not training-file order; in the
concrete scenario, training on [(math, x y), (cs, y z)] and predicting y is
a genuine tie resolved to cs. -/
theorem c1_predict_argmax_lex_tiebreak :
    (∀ (records : List (String × String)) (content : String),
      (train_classifier records).C_w_count ≠ [] →
      ∃ l s, predict_label (train_classifier records) content = some (l, s) ∧
        l ∈ keys (train_classifier records).C_w_count ∧
        calc_log_prob_score (train_classifier records) l content = s ∧
        (∀ l' ∈ keys (train_classifier records).C_w_count,
          calc_log_prob_score (train_classifier records) l' content ≤ s) ∧
        (∀ l' ∈ keys (train_classifier records).C_w_count,
          calc_log_prob_score (train_classifier records) l' content = s →
            strLt l' l = false)) ∧
    (calc_log_prob_score (train_classifier [("math","x y"), ("cs","y z")]) "cs" "y"
        = calc_log_prob_score (train_classifier [("math","x y"), ("cs","y z")]) "math" "y" ∧
      predict_label (train_classifier [("math","x y"), ("cs","y z")]) "y"
        = some ("cs",
            calc_log_prob_score (train_classifier [("math","x y"), ("cs","y z")]) "cs" "y")) := by
  refine ⟨?_, scenario_scores_tie, scenario_predict⟩
  intro records content hne
  obtain ⟨q, qs, hq⟩ : ∃ q qs, (train_classifier records).C_w_count = q :: qs := by
    cases hC : (train_classifier records).C_w_count with
    | nil => exact absurd hC hne
    | cons q qs => exact ⟨q, qs, rfl⟩
  have hps : prob_scores (train_classifier records) content
      = (q.1, calc_log_prob_score (train_classifier records) q.1 content)
        :: qs.map (fun p => (p.1, calc_log_prob_score (train_classifier records) p.1 content)) := by
    rw [prob_scores, hq, List.map_cons]
  obtain ⟨pre, suf, heq, hpre, hsuf⟩ := bestOf_split
    (q.1, calc_log_prob_score (train_classifier records) q.1 content)
    (qs.map (fun p => (p.1, calc_log_prob_score (train_classifier records) p.1 content)))
  have hpred := predict_label_eq hps
  have hscored : prob_scores (train_classifier records) content = pre
      ++ bestOf (q.1, calc_log_prob_score (train_classifier records) q.1 content)
          (qs.map (fun p => (p.1, calc_log_prob_score (train_classifier records) p.1 content)))
        :: suf := by
    rw [hps]
    exact heq
  set r := bestOf (q.1, calc_log_prob_score (train_classifier records) q.1 content)
    (qs.map (fun p => (p.1, calc_log_prob_score (train_classifier records) p.1 content))) with hrdef
  have hform : ∀ x ∈ prob_scores (train_classifier records) content,
      x = (x.1, calc_log_prob_score (train_classifier records) x.1 content) ∧
        x.1 ∈ keys (train_classifier records).C_w_count := by
    intro x hx
    rw [prob_scores] at hx
    obtain ⟨p, hp, rfl⟩ := List.mem_map.mp hx
    exact ⟨rfl, List.mem_map.mpr ⟨p, hp, rfl⟩⟩
  have hform' : ∀ l' ∈ keys (train_classifier records).C_w_count,
      (l', calc_log_prob_score (train_classifier records) l' content)
        ∈ prob_scores (train_classifier records) content := by
    intro l' hl'
    obtain ⟨p, hp, rfl⟩ := List.mem_map.mp hl'
    exact List.mem_map.mpr ⟨p, hp, rfl⟩
  have hrmem : r ∈ prob_scores (train_classifier records) content := by
    rw [hscored]
    exact List.mem_append.mpr (Or.inr (List.mem_cons_self _ _))
  obtain ⟨hrform, hrkeys⟩ := hform r hrmem
  have hmax : ∀ x ∈ prob_scores (train_classifier records) content, x.2 ≤ r.2 := by
    intro x hx
    rw [hscored] at hx
    rcases List.mem_append.mp hx with hx | hx
    · exact le_of_lt (hpre x hx)
    · rcases List.mem_cons.mp hx with rfl | hx
      · exact le_rfl
      · exact hsuf x hx
  have hsorted : (prob_scores (train_classifier records) content).Pairwise
      (fun a b => strLt a.1 b.1 = true) := by
    rw [prob_scores]
    exact List.Pairwise.map _ (fun a b h => h) (inv_train records).s_outer
  refine ⟨r.1, r.2, ?_, hrkeys, (congrArg Prod.snd hrform).symm, ?_, ?_⟩
  · rw [hpred]
  · intro l' hl'
    exact hmax _ (hform' l' hl')
  · intro l' hl' heq2
    by_contra hko
    have hko' : strLt l' r.1 = true := by
      revert hko
      cases strLt l' r.1 <;> simp
    have hx := hform' l' hl'
    rw [hscored] at hx
    rcases List.mem_append.mp hx with hx | hx
    · have hlt := hpre _ hx
      rw [heq2] at hlt
      exact lt_irrefl _ hlt
    · rcases List.mem_cons.mp hx with hxr | hx
      · have hl'r : l' = r.1 := congrArg Prod.fst hxr
        rw [hl'r, strLt_irrefl] at hko'
        exact Bool.noConfusion hko'
      · have hsub : (r :: suf).Pairwise (fun a b => strLt a.1 b.1 = true) := by
          rw [hscored] at hsorted
          exact List.Pairwise.sublist (List.sublist_append_right pre (r :: suf)) hsorted
        have hpair : strLt r.1 l' = true := (List.pairwise_cons.mp hsub).1 _ hx
        have hfa := strLt_asymm hpair
        rw [hfa] at hko'
        exact Bool.noConfusion hko'

/-- Witness for c1_predict_argmax_lex_tiebreak: its general part instantiated
at a concrete trained model and content. -/
theorem c1_predict_argmax_lex_tiebreak_witness :
    ∃ l s, predict_label (train_classifier [("math","x y"), ("cs","y z")]) "x"
        = some (l, s) ∧
      l ∈ keys (train_classifier [("math","x y"), ("cs","y z")]).C_w_count ∧
      calc_log_prob_score (train_classifier [("math","x y"), ("cs","y z")]) l "x" = s ∧
      (∀ l' ∈ keys (train_classifier [("math","x y"), ("cs","y z")]).C_w_count,
        calc_log_prob_score (train_classifier [("math","x y"), ("cs","y z")]) l' "x" ≤ s) ∧
      (∀ l' ∈ keys (train_classifier [("math","x y"), ("cs","y z")]).C_w_count,
        calc_log_prob_score (train_classifier [("math","x y"), ("cs","y z")]) l' "x" = s →
          strLt l' l = false) :=
  c1_predict_argmax_lex_tiebreak.1 [("math","x y"), ("cs","y z")] "x" (by decide)

/-! ### The maximal-run characterization of tokenization -/

theorem notWS_iff {c : Char} : notWS c = true ↔ isWS c = false := by
  simp [notWS]

theorem getLast?_cons_of_ne_nil {c : Char} {a : List Char} (h : a ≠ []) :
    (c :: a).getLast? = a.getLast? := by
  cases a with
  | nil => exact absurd rfl h
  | cons x xs => exact List.getLast?_cons_cons

theorem getLast?_append_of_ne_nil (l₁ : List Char) {l₂ : List Char} (h : l₂ ≠ []) :
    (l₁ ++ l₂).getLast? = l₂.getLast? := by
  rw [List.getLast?_append]
  cases hcase : l₂.getLast? with
  | none => exact absurd (List.getLast?_eq_none_iff.mp hcase) h
  | some z => rfl

theorem maxRun_nil (w : List Char) : ¬ MaxRun w [] := by
  rintro ⟨⟨hne, _⟩, a, b, hsplit, _, _⟩
  rcases List.append_eq_nil.mp ((List.append_eq_nil.mp hsplit.symm).1) with ⟨_, hw⟩
  exact hne hw

theorem maxRun_cons_ws {c : Char} (hw : isWS c = true) (t w : List Char) :
    MaxRun w (c :: t) ↔ MaxRun w t := by
  constructor
  · rintro ⟨htok, a, b, hsplit, hlast, hhead⟩
    cases a with
    | nil =>
      exfalso
      cases w with
      | nil => exact htok.1 rfl
      | cons w0 w' =>
        rw [List.nil_append, List.cons_append] at hsplit
        have hc : c = w0 := ((List.cons.injEq _ _ _ _).mp hsplit).1
        have hnw := htok.2 w0 (by simp)
        rw [← hc, notWS, hw] at hnw
        exact Bool.noConfusion hnw
    | cons c' a' =>
      rw [List.cons_append, List.cons_append] at hsplit
      have ht : t = a' ++ w ++ b := ((List.cons.injEq _ _ _ _).mp hsplit).2
      refine ⟨htok, a', b, ht, ?_, hhead⟩
      intro x hx
      apply hlast x
      have ha' : a' ≠ [] := by
        intro hnil
        rw [hnil] at hx
        exact Option.noConfusion hx
      rw [getLast?_cons_of_ne_nil ha']
      exact hx
  · rintro ⟨htok, a, b, hsplit, hlast, hhead⟩
    refine ⟨htok, c :: a, b, by simp [hsplit], ?_, hhead⟩
    intro x hx
    cases a with
    | nil =>
      simp only [List.getLast?_singleton, Option.some.injEq] at hx
      rw [← hx]
      exact hw
    | cons a0 a'' =>
      rw [List.getLast?_cons_cons] at hx
      exact hlast x hx

theorem head?_dropWhile_ws : ∀ {l : List Char} {x : Char},
    (l.dropWhile notWS).head? = some x → isWS x = true
  | [], x, h => by simp [List.dropWhile] at h
  | c :: t, x, h => by
    rw [List.dropWhile_cons] at h
    by_cases hc : notWS c = true
    · rw [if_pos hc] at h
      exact head?_dropWhile_ws h
    · rw [if_neg hc] at h
      rw [List.head?_cons] at h
      injection h with h
      subst h
      cases hic : isWS c with
      | true => rfl
      | false => exact absurd (by simp [notWS, hic]) hc

theorem maxRun_cons_not_ws {c : Char} (hw : isWS c = false) (t w : List Char) :
    MaxRun w (c :: t) ↔ (w = c :: t.takeWhile notWS ∨ MaxRun w (t.dropWhile notWS)) := by
  constructor
  · rintro ⟨⟨hne, hnw⟩, a, b, hsplit, hlast, hhead⟩
    cases a with
    | nil =>
      left
      cases w with
      | nil => exact absurd rfl hne
      | cons w0 w' =>
        rw [List.nil_append, List.cons_append] at hsplit
        obtain ⟨hc, ht⟩ := (List.cons.injEq _ _ _ _).mp hsplit
        have htake : t.takeWhile notWS = w' := by
          rw [ht, List.takeWhile_append_of_pos (fun x hx => hnw x (by simp [hx]))]
          cases b with
          | nil => simp
          | cons b0 b' =>
            have hb0 : isWS b0 = true := hhead b0 rfl
            rw [List.takeWhile_cons_of_neg (by simp [notWS, hb0])]
            simp
        rw [htake, hc]
    | cons c0 a' =>
      right
      rw [List.cons_append, List.cons_append] at hsplit
      obtain ⟨hc0, ht⟩ := (List.cons.injEq _ _ _ _).mp hsplit
      have ha' : a' ≠ [] := by
        intro hnil
        subst hnil
        have hcs := hlast c0 (by simp)
        rw [← hc0, hw] at hcs
        exact Bool.noConfusion hcs
      obtain ⟨z, hzlast⟩ : ∃ z, a'.getLast? = some z := by
        cases hcase : a'.getLast? with
        | none => exact absurd (List.getLast?_eq_none_iff.mp hcase) ha'
        | some z => exact ⟨z, rfl⟩
      have hzws : isWS z = true := by
        apply hlast z
        rw [getLast?_cons_of_ne_nil ha']
        exact hzlast
      have hzmem : z ∈ a' := List.mem_of_getLast?_eq_some hzlast
      have ha2 : a'.dropWhile notWS ≠ [] := by
        intro hnil
        have hzn := List.dropWhile_eq_nil_iff.mp hnil z hzmem
        rw [notWS, hzws] at hzn
        exact Bool.noConfusion hzn
      have hdrop : t.dropWhile notWS = a'.dropWhile notWS ++ (w ++ b) := by
        rw [ht, List.append_assoc, List.dropWhile_append, if_neg (by simp [ha2])]
      refine ⟨⟨hne, hnw⟩, a'.dropWhile notWS, b, by rw [hdrop, List.append_assoc], ?_, hhead⟩
      intro x hx
      have hta : a'.takeWhile notWS ++ a'.dropWhile notWS = a' :=
        List.takeWhile_append_dropWhile notWS a'
      have hxa : a'.getLast? = some x := by
        rw [← hta, getLast?_append_of_ne_nil _ ha2]
        exact hx
      rw [hzlast] at hxa
      injection hxa with hzx
      rw [← hzx]
      exact hzws
  · rintro (rfl | ⟨htok, a, b, hsplit, hlast, hhead⟩)
    · have hta : t.takeWhile notWS ++ t.dropWhile notWS = t :=
        List.takeWhile_append_dropWhile notWS t
      refine ⟨⟨by simp, ?_⟩, [], t.dropWhile notWS, ?_, ?_, ?_⟩
      · intro x hx
        rcases List.mem_cons.mp hx with rfl | hx
        · rw [notWS, hw]
          rfl
        · exact List.mem_takeWhile_imp hx
      · rw [List.nil_append, List.cons_append, hta]
      · intro x hx
        exact Option.noConfusion hx
      · intro x hx
        exact head?_dropWhile_ws hx
    · have hta : t.takeWhile notWS ++ t.dropWhile notWS = t :=
        List.takeWhile_append_dropWhile notWS t
      have hane : a ≠ [] := by
        intro hnil
        subst hnil
        rw [List.nil_append] at hsplit
        cases w with
        | nil => exact htok.1 rfl
        | cons w0 w' =>
          have hh : isWS w0 = true :=
            head?_dropWhile_ws (by rw [hsplit, List.cons_append, List.head?_cons])
          have hnw0 := htok.2 w0 (by simp)
          simp [notWS, hh] at hnw0
      refine ⟨htok, c :: (t.takeWhile notWS ++ a), b, ?_, ?_, hhead⟩
      · conv_lhs =>
          rw [show t = List.takeWhile notWS t ++ (a ++ w ++ b) from by
            rw [← hsplit]; exact hta.symm]
        simp [List.append_assoc]
      · intro x hx
        apply hlast x
        have hne2 : t.takeWhile notWS ++ a ≠ [] := by
          intro hnil
          exact hane (List.append_eq_nil.mp hnil).2
        rw [getLast?_cons_of_ne_nil hne2, getLast?_append_of_ne_nil _ hane] at hx
        exact hx

theorem mem_tokens_iff : ∀ (s w : List Char), w ∈ tokens s ↔ MaxRun w s
  | [], w => by
    rw [tokens_nil]
    constructor
    · intro h
      exact absurd h (List.not_mem_nil w)
    · intro h
      exact absurd h (maxRun_nil w)
  | c :: t, w => by
    by_cases hw : isWS c = true
    · rw [tokens_cons, if_pos hw, maxRun_cons_ws hw]
      exact mem_tokens_iff t w
    · have hw' : isWS c = false := Bool.eq_false_iff.mpr hw
      rw [tokens_cons, if_neg hw, List.mem_cons, maxRun_cons_not_ws hw']
      rw [mem_tokens_iff (t.dropWhile notWS) w]
termination_by s _ => s.length
decreasing_by
  · simp
  · have h : (List.dropWhile notWS t).length ≤ t.length :=
      List.Sublist.length_le (List.dropWhile_sublist notWS)
    simp
    omega

/-- C10: `unique_words` returns exactly the set of distinct maximal runs of
non-whitespace characters of the input (splitting on spaces, tabs and
newlines — and the other `isspace` characters — alike): membership is
equivalent to being a maximal run, the result is duplicate-free, a string of
only whitespace (hence also the empty string) yields the empty set, and the
empty string is never an element. -/
theorem c10_unique_words_are_maximal_runs (s : String) :
    (∀ w : String, w ∈ unique_words s ↔ MaxRun w.data s.data) ∧
    (unique_words s).Nodup ∧
    ((∀ c ∈ s.data, isWS c = true) → unique_words s = []) ∧
    "" ∉ unique_words s := by
  have hmem : ∀ w : String, w ∈ unique_words s ↔ MaxRun w.data s.data := by
    intro w
    rw [mem_unique_words]
    constructor
    · rintro ⟨t, ht, rfl⟩
      exact (mem_tokens_iff s.data t).mp ht
    · intro h
      refine ⟨w.data, (mem_tokens_iff s.data w.data).mpr h, ?_⟩
      cases w
      rfl
  refine ⟨hmem, unique_words_nodup s, ?_, ?_⟩
  · intro hws
    by_contra hne
    obtain ⟨w, hw⟩ := List.exists_mem_of_ne_nil _ hne
    obtain ⟨⟨hne', hnw⟩, a, b, hsplit, _, _⟩ := (hmem w).mp hw
    cases hd : w.data with
    | nil => exact hne' hd
    | cons w0 w' =>
      have hw0 : w0 ∈ s.data := by
        rw [hsplit]
        exact List.mem_append.mpr (Or.inl (List.mem_append.mpr (Or.inr (by rw [hd]; simp))))
      have h1 := hws w0 hw0
      have h2 := hnw w0 (by rw [hd]; simp)
      rw [notWS, h1] at h2
      exact Bool.noConfusion h2
  · intro hmem0
    exact ((hmem "").mp hmem0).1.1 rfl

/-- Witness for c10_unique_words_are_maximal_runs: a whitespace-only string
yields the empty word set. -/
theorem c10_unique_words_are_maximal_runs_witness :
    unique_words " \t " = [] :=
  (c10_unique_words_are_maximal_runs " \t ").2.2.1 (by decide)

/-! ### Doubling every word of a post -/

theorem tokens_all_token {s w : List Char} (h : w ∈ tokens s) : IsToken w :=
  ((mem_tokens_iff s w).mp h).1

theorem tokens_token_append {w : List Char} (hw : IsToken w) (s : List Char)
    (hs : ∀ c, s.head? = some c → isWS c = true) :
    tokens (w ++ s) = w :: tokens s := by
  obtain ⟨hne, hnw⟩ := hw
  cases w with
  | nil => exact absurd rfl hne
  | cons c w' =>
    rw [List.cons_append, tokens_cons]
    have hc : notWS c = true := hnw c (by simp)
    have hwc : isWS c = false := notWS_iff.mp hc
    rw [if_neg (by simp [hwc])]
    have htake : (w' ++ s).takeWhile notWS = w' := by
      rw [List.takeWhile_append_of_pos (fun x hx => hnw x (by simp [hx]))]
      cases s with
      | nil => simp
      | cons b0 b' =>
        have hb : ¬ notWS b0 = true := by
          have hbw := hs b0 rfl
          simp [notWS, hbw]
        rw [List.takeWhile_cons_of_neg hb]
        simp
    have hdrop : (w' ++ s).dropWhile notWS = s := by
      rw [List.dropWhile_append_of_pos (fun x hx => hnw x (by simp [hx]))]
      cases s with
      | nil => simp
      | cons b0 b' =>
        have hb : ¬ notWS b0 = true := by
          have hbw := hs b0 rfl
          simp [notWS, hbw]
        rw [List.dropWhile_cons_of_neg hb]
    rw [htake, hdrop]

theorem tokens_joinTokens : ∀ {ts : List (List Char)}, (∀ t ∈ ts, IsToken t) →
    tokens (joinTokens ts) = ts
  | [], _ => rfl
  | [t], h => by
    rw [joinTokens]
    have ht := tokens_token_append (h t (by simp)) [] (fun c hc => Option.noConfusion hc)
    rw [List.append_nil] at ht
    exact ht
  | t :: t2 :: rest, h => by
    have hj : joinTokens (t :: t2 :: rest) = t ++ ' ' :: joinTokens (t2 :: rest) := rfl
    rw [hj]
    rw [tokens_token_append (h t (by simp)) (' ' :: joinTokens (t2 :: rest))
      (fun c hc => by
        rw [List.head?_cons] at hc
        injection hc with hc
        rw [← hc]
        decide)]
    rw [tokens_cons, if_pos (by decide)]
    rw [tokens_joinTokens (fun t' ht' => h t' (by simp [ht']))]

theorem mem_dupEach {a : α} : ∀ {l : List α}, a ∈ dupEach l ↔ a ∈ l
  | [] => Iff.rfl
  | x :: t => by
    have ih : a ∈ dupEach t ↔ a ∈ t := mem_dupEach
    rw [dupEach, List.mem_cons, List.mem_cons, List.mem_cons, ih]
    tauto

theorem tokens_double_words (s : String) :
    tokens (double_words s).data = dupEach (tokens s.data) := by
  show tokens (joinTokens (dupEach (tokens s.data))) = dupEach (tokens s.data)
  apply tokens_joinTokens
  intro t ht
  exact tokens_all_token (mem_dupEach.mp ht)

theorem unique_words_double (s : String) :
    unique_words (double_words s) = unique_words s := by
  apply sortedS_ext (unique_words_sorted _) (unique_words_sorted _)
  intro x
  rw [mem_unique_words, mem_unique_words, tokens_double_words]
  constructor
  · rintro ⟨t, ht, rfl⟩
    exact ⟨t, mem_dupEach.mp ht, rfl⟩
  · rintro ⟨t, ht, rfl⟩
    exact ⟨t, mem_dupEach.mpr ht, rfl⟩

theorem train_post_words {m : Model} {t c c' : String}
    (h : unique_words c = unique_words c') :
    train_post m (t, c) = train_post m (t, c') := by
  show (let m1 := { m with label_count := bump m.label_count t };
        let m2 := (unique_words c).foldl (train_word t) m1;
        { m2 with total_posts := m2.total_posts + 1 })
      = (let m1 := { m with label_count := bump m.label_count t };
         let m2 := (unique_words c').foldl (train_word t) m1;
         { m2 with total_posts := m2.total_posts + 1 })
  rw [h]

/-- C9: replacing one post's content by the same content with every word
written twice trains an identical model — all of total_posts, vocab_size,
word_count, label_count and C_w_count are equal, because duplicate words in
one post count at most once (set semantics of unique_words). -/
theorem c9_doubling_words_keeps_model (pre suf : List (String × String)) (t c : String) :
    train_classifier (pre ++ (t, c) :: suf)
      = train_classifier (pre ++ (t, double_words c) :: suf) := by
  have h : (pre ++ (t, c) :: suf).foldl train_post (Model.mk 0 0 [] [] [])
      = (pre ++ (t, double_words c) :: suf).foldl train_post (Model.mk 0 0 [] [] []) := by
    rw [List.foldl_append, List.foldl_append, List.foldl_cons, List.foldl_cons,
      train_post_words (unique_words_double c).symm]
  show { ((pre ++ (t, c) :: suf).foldl train_post (Model.mk 0 0 [] [] [])) with
      vocab_size :=
        ((pre ++ (t, c) :: suf).foldl train_post
          (Model.mk 0 0 [] [] [])).word_count.length }
    = { ((pre ++ (t, double_words c) :: suf).foldl train_post (Model.mk 0 0 [] [] [])) with
      vocab_size :=
        ((pre ++ (t, double_words c) :: suf).foldl train_post
          (Model.mk 0 0 [] [] [])).word_count.length }
  rw [h]

end NB
